import Mathlib

/-!
Verification development for the core of the `anything` voting application:
vote scoring and tallying, vote-submission cleaning, snapshot persistence,
meal-period resolution, and the deterministic display orderings.  The
definitions below are shallow embeddings of the Go functions in the
application package (`tallyData`, `updateVotes`, `Load`/`Save`,
`periodForHour`, `periodTallyWeekday`, `sortGroupNames`, `personForToken`
and the `db` state they operate on).  Go maps are modelled as association
lists with first-binding-wins lookup and overwrite-or-append update; Go
`int` is modelled as `Int`.
-/

namespace Anything

/-- Association list lookup with Go-map semantics: at most one binding is
ever live for a key; for lists with duplicated keys the first binding wins. -/
def lookupA {β : Type} (k : String) : List (String × β) → Option β
  | [] => none
  | (k₂, v) :: rest => if k₂ = k then some v else lookupA k rest

/-- Association list update with Go-map assignment semantics: overwrite the
existing binding for the key, or append a fresh binding. -/
def setA {β : Type} (k : String) (v : β) : List (String × β) → List (String × β)
  | [] => [(k, v)]
  | (k₂, v₂) :: rest => if k₂ = k then (k, v) :: rest else (k₂, v₂) :: setA k v rest

/-- `Entry` from the Go source: a votable place/dish.  `Open` maps a
three-letter weekday code to the list of period names the entry is open. -/
structure Entry where
  Name : String
  Group : String
  Open : List (String × List String)
  Cost : Int
deriving DecidableEq

/-- `GroupVote`: entry name → vote value within one group. -/
abbrev GroupVote := List (String × String)

/-- `PersonVote`: group name → group votes for one person. -/
abbrev PersonVote := List (String × GroupVote)

/-- `db.Votes`: person name → that person's votes. -/
abbrev VoteMap := List (String × PersonVote)

/-- The `voteScores` table from the Go source. -/
def voteScores : List (String × Int) :=
  [("strong-no", 0), ("no", 1), ("yes", 2), ("strong-yes", 3)]

/-- The in-memory database `db` from the Go source. -/
structure DB where
  Entries : List Entry
  Votes : VoteMap
  GroupOrder : List String
deriving DecidableEq

/-- The triple-nested vote lookup `a.db.Votes[person][group][name]` used by
`tallyData`: `none` when any level of the lookup misses. -/
def lookupVote (votes : VoteMap) (person group name : String) : Option String :=
  match lookupA person votes with
  | none => none
  | some pv =>
    match lookupA group pv with
    | none => none
    | some gv => lookupA name gv

/-- The per-person vote value computed in `tallyData`'s inner loop: default 2
("yes") when the person has no stored vote for the (group, name) pair,
otherwise `voteScores[v]` (Go's zero value 0 for an unrecognized string). -/
def voteValFor (votes : VoteMap) (person group name : String) : Int :=
  match lookupVote votes person group name with
  | none => 2
  | some v => (lookupA v voteScores).getD 0

/-- The vote sum accumulated over the roster in `tallyData`. -/
def entrySum (people : List String) (votes : VoteMap) (e : Entry) : Int :=
  people.foldl (fun acc p => acc + voteValFor votes p e.Group e.Name) 0

/-- `score := sum*3 - e.Cost` from `tallyData`. -/
def entryScore (people : List String) (votes : VoteMap) (e : Entry) : Int :=
  entrySum people votes e * 3 - e.Cost

/-- The veto flag from `tallyData`: some person's stored vote is "strong-no". -/
def entryStrongNo (people : List String) (votes : VoteMap) (e : Entry) : Bool :=
  people.any (fun p => decide (lookupVote votes p e.Group e.Name = some "strong-no"))

theorem foldl_add_eq_sum (f : String → Int) :
    ∀ (l : List String) (acc : Int),
      l.foldl (fun a p => a + f p) acc = acc + (l.map f).sum := by
  intro l
  induction l with
  | nil => intro acc; simp
  | cons p rest ih =>
    intro acc
    simp only [List.foldl, List.map, List.sum_cons, ih]
    omega

/-- Roster, entry and vote map for the worked scoring example: cost 2, three
voters casting strong-yes, no, yes. -/
def exPeople : List String := ["anna", "bob", "cara"]

def exEntry : Entry := { Name := "Pizza", Group := "Downtown", Open := [], Cost := 2 }

def exVotes : VoteMap :=
  [("anna", [("Downtown", [("Pizza", "strong-yes")])]),
   ("bob", [("Downtown", [("Pizza", "no")])]),
   ("cara", [("Downtown", [("Pizza", "yes")])])]

/-- Entry for the default-vote example: cost 1, zero votes cast. -/
def exEntryDefault : Entry := { Name := "Soup", Group := "Uptown", Open := [], Cost := 1 }

/-- Claim C1: for every entry and vote state, the tally score equals `S*3 -
cost` where `S` sums each roster member's vote score for the entry's (group,
name) pair, an absent vote counting as "yes" (2); in particular cost 2 with
votes strong-yes(3), no(1), yes(2) gives 16, and cost 1 with three people and
zero votes gives 17. -/
theorem tally_score_spec :
    (∀ (people : List String) (votes : VoteMap) (e : Entry),
        entryScore people votes e =
          (people.map (fun p => voteValFor votes p e.Group e.Name)).sum * 3 - e.Cost) ∧
    entryScore exPeople exVotes exEntry = 16 ∧
    entryScore exPeople [] exEntryDefault = 17 := by
  refine ⟨?_, by decide, by decide⟩
  intro people votes e
  unfold entryScore entrySum
  rw [foldl_add_eq_sum]
  omega

/-- `strings.Cut(key, "|")` on the character list: split at the first '|'. -/
def splitFirstBar : List Char → Option (List Char × List Char)
  | [] => none
  | c :: rest =>
    if c = '|' then some ([], rest)
    else
      match splitFirstBar rest with
      | some (g, n) => some (c :: g, n)
      | none => none

/-- `strings.Cut(key, "|")`: `some (before, after)` when "|" occurs in the key. -/
def cutBar (s : String) : Option (String × String) :=
  match splitFirstBar s.data with
  | some (g, n) => some (⟨g⟩, ⟨n⟩)
  | none => none

/-- Membership view of `db.entryGroups`: the Go method builds a map from an
entry name to its set of groups, and `updateVotes` tests
`entryGroup[name][group]`; that two-step test succeeds exactly when some
catalog entry has this name and group. -/
def entryGroups (entries : List Entry) (name group : String) : Bool :=
  entries.any (fun e => decide (e.Name = name ∧ e.Group = group))

/-- One iteration of the `updateVotes` cleaning loop: skip the pair when the
key has no "|", when the (group, name) pair is not in the catalog, or when
the vote value is unrecognized; otherwise store it via `pv[group][name]`. -/
def processVote (entries : List Entry) (pv : PersonVote) (kv : String × String) : PersonVote :=
  match cutBar kv.1 with
  | none => pv
  | some (group, name) =>
    if entryGroups entries name group && (lookupA kv.2 voteScores).isSome then
      setA group (setA name kv.2 ((lookupA group pv).getD [])) pv
    else pv

/-- The cleaned `PersonVote` map `updateVotes` builds from a submission. -/
def cleanVotes (entries : List Entry) (m : List (String × String)) : PersonVote :=
  m.foldl (processVote entries) []

/-- `updateVotes`: wholly replace the person's vote map with the cleaned
submission. -/
def updateVotes (d : DB) (person : String) (m : List (String × String)) : DB :=
  { d with Votes := setA person (cleanVotes d.Entries m) d.Votes }

/-- Two-level lookup `pv[group][name]` in a person's vote map. -/
def lookupPV (pv : PersonVote) (group name : String) : Option String :=
  match lookupA group pv with
  | none => none
  | some gv => lookupA name gv

/-- The (group, name) target a submission pair is accepted for, if any:
packages the guard sequence of the cleaning loop. -/
def acceptKey (entries : List Entry) (k v : String) : Option (String × String) :=
  match cutBar k with
  | none => none
  | some (group, name) =>
    if entryGroups entries name group && (lookupA v voteScores).isSome then
      some (group, name)
    else none

theorem lookupA_setA_self {β : Type} (k : String) (v : β) :
    ∀ l : List (String × β), lookupA k (setA k v l) = some v := by
  intro l
  induction l with
  | nil => simp [setA, lookupA]
  | cons kv rest ih =>
    obtain ⟨k₂, v₂⟩ := kv
    by_cases h : k₂ = k
    · simp [setA, h, lookupA]
    · simp [setA, h, lookupA, ih]

theorem lookupA_setA_ne {β : Type} (k k₃ : String) (v : β) (hne : k₃ ≠ k) :
    ∀ l : List (String × β), lookupA k₃ (setA k v l) = lookupA k₃ l := by
  have hkk : k ≠ k₃ := Ne.symm hne
  intro l
  induction l with
  | nil => simp [setA, lookupA, hkk]
  | cons kv rest ih =>
    obtain ⟨k₂, v₂⟩ := kv
    by_cases h : k₂ = k
    · subst h
      simp [setA, lookupA, hkk]
    · simp [setA, h, lookupA, ih]

theorem setA_setA {β : Type} (k : String) (v v₂ : β) :
    ∀ l : List (String × β), setA k v₂ (setA k v l) = setA k v₂ l := by
  intro l
  induction l with
  | nil => simp [setA]
  | cons kv rest ih =>
    obtain ⟨k₂, v₃⟩ := kv
    by_cases h : k₂ = k
    · simp [setA, h]
    · simp [setA, h, ih]

theorem lookupPV_none {pv : PersonVote} {g n : String} (h : lookupA g pv = none) :
    lookupPV pv g n = none := by
  unfold lookupPV
  rw [h]

theorem lookupPV_some {pv : PersonVote} {g n : String} {gv : GroupVote}
    (h : lookupA g pv = some gv) : lookupPV pv g n = lookupA n gv := by
  unfold lookupPV
  rw [h]

theorem lookupPV_set (pv : PersonVote) (g n v : String) (g₂ n₂ : String) :
    lookupPV (setA g (setA n v ((lookupA g pv).getD [])) pv) g₂ n₂ =
      if g = g₂ ∧ n = n₂ then some v else lookupPV pv g₂ n₂ := by
  by_cases hg : g = g₂
  · subst hg
    rw [lookupPV_some (lookupA_setA_self g _ pv)]
    by_cases hn : n = n₂
    · subst hn
      rw [lookupA_setA_self]
      simp
    · rw [lookupA_setA_ne n n₂ v (Ne.symm hn)]
      simp only [hn, and_false, if_false]
      cases hgv : lookupA g pv with
      | none => rw [lookupPV_none hgv]; simp [Option.getD, lookupA]
      | some gv => rw [lookupPV_some hgv]; simp [Option.getD]
  · simp only [hg, false_and, if_false]
    unfold lookupPV
    rw [lookupA_setA_ne g g₂ _ (Ne.symm hg)]


/-- `processVote` re-expressed through its guard. -/
theorem processVote_eq (entries : List Entry) (pv : PersonVote) (kv : String × String) :
    processVote entries pv kv =
      match acceptKey entries kv.1 kv.2 with
      | none => pv
      | some (group, name) =>
        setA group (setA name kv.2 ((lookupA group pv).getD [])) pv := by
  unfold processVote acceptKey
  cases cutBar kv.1 with
  | none => simp
  | some gn =>
    obtain ⟨g, n⟩ := gn
    by_cases h : entryGroups entries n g && (lookupA kv.2 voteScores).isSome
    · simp [h]
    · simp [h]

theorem acceptKey_of_cut_none {entries : List Entry} {k : String} (v : String)
    (h : cutBar k = none) : acceptKey entries k v = none := by
  unfold acceptKey
  rw [h]

theorem acceptKey_of_cut_some {entries : List Entry} {k g n : String} (v : String)
    (h : cutBar k = some (g, n)) :
    acceptKey entries k v =
      if entryGroups entries n g && (lookupA v voteScores).isSome then some (g, n)
      else none := by
  unfold acceptKey
  rw [h]

theorem acceptKey_eq_some_iff (entries : List Entry) (k v g n : String) :
    acceptKey entries k v = some (g, n) ↔
      cutBar k = some (g, n) ∧ entryGroups entries n g = true ∧
        (lookupA v voteScores).isSome = true := by
  cases hcut : cutBar k with
  | none =>
    rw [acceptKey_of_cut_none v hcut]
    simp
  | some gn =>
    obtain ⟨g₂, n₂⟩ := gn
    rw [acceptKey_of_cut_some v hcut]
    by_cases h : (entryGroups entries n₂ g₂ && (lookupA v voteScores).isSome) = true
    · rw [if_pos h]
      rw [Bool.and_eq_true] at h
      constructor
      · intro he
        rw [Option.some_inj, Prod.mk.injEq] at he
        obtain ⟨h1, h2⟩ := he
        subst h1; subst h2
        exact ⟨rfl, h.1, h.2⟩
      · rintro ⟨he, -, -⟩
        exact he
    · rw [if_neg h]
      constructor
      · intro he; cases he
      · rintro ⟨he, hg, hv⟩
        rw [Option.some_inj, Prod.mk.injEq] at he
        obtain ⟨h1, h2⟩ := he
        subst h1; subst h2
        exact absurd (Bool.and_eq_true _ _ |>.mpr ⟨hg, hv⟩) h

/-- If `strings.Cut` splits a key into (before, after), the key is exactly
`before ++ "|" ++ after`; hence distinct keys split to distinct pairs. -/
theorem splitFirstBar_eq (cs : List Char) (g n : List Char) :
    splitFirstBar cs = some (g, n) → cs = g ++ '|' :: n := by
  induction cs generalizing g n with
  | nil => intro h; simp [splitFirstBar] at h
  | cons c rest ih =>
    intro h
    unfold splitFirstBar at h
    by_cases hc : c = '|'
    · subst hc
      simp at h
      obtain ⟨hg, hn⟩ := h
      subst hg; subst hn
      simp
    · simp only [hc, if_false] at h
      cases hsp : splitFirstBar rest with
      | none => rw [hsp] at h; cases h
      | some gn =>
        obtain ⟨g₂, n₂⟩ := gn
        rw [hsp] at h
        simp at h
        obtain ⟨hg, hn⟩ := h
        subst hg; subst hn
        simp [ih g₂ n₂ hsp]

theorem cutBar_inj (k₁ k₂ : String) (g n : String) :
    cutBar k₁ = some (g, n) → cutBar k₂ = some (g, n) → k₁ = k₂ := by
  intro h₁ h₂
  unfold cutBar at h₁ h₂
  cases hs₁ : splitFirstBar k₁.data with
  | none => rw [hs₁] at h₁; cases h₁
  | some p₁ =>
    cases hs₂ : splitFirstBar k₂.data with
    | none => rw [hs₂] at h₂; cases h₂
    | some p₂ =>
      obtain ⟨g₁, n₁⟩ := p₁
      obtain ⟨g₂, n₂⟩ := p₂
      rw [hs₁] at h₁
      rw [hs₂] at h₂
      simp at h₁ h₂
      obtain ⟨hg₁, hn₁⟩ := h₁
      obtain ⟨hg₂, hn₂⟩ := h₂
      have e₁ := splitFirstBar_eq _ _ _ hs₁
      have e₂ := splitFirstBar_eq _ _ _ hs₂
      have : k₁.data = k₂.data := by
        rw [e₁, e₂]
        rw [show g₁ = g.data from congrArg String.data hg₁,
          show n₁ = n.data from congrArg String.data hn₁,
          show g₂ = g.data from congrArg String.data hg₂,
          show n₂ = n.data from congrArg String.data hn₂]
      cases k₁; cases k₂
      exact congrArg String.mk (by simpa using this)

/-- The last submission pair accepted for a (group, name) target: in the Go
cleaning loop a later accepted pair for the same target overwrites an earlier
one. -/
def lastAccepted (entries : List Entry) (g n : String) :
    List (String × String) → Option String
  | [] => none
  | (k, v) :: rest =>
    match lastAccepted entries g n rest with
    | some v₂ => some v₂
    | none => if acceptKey entries k v = some (g, n) then some v else none

theorem foldl_processVote (entries : List Entry) (g n : String) :
    ∀ (m : List (String × String)) (pv₀ : PersonVote),
      lookupPV (m.foldl (processVote entries) pv₀) g n =
        match lastAccepted entries g n m with
        | some v => some v
        | none => lookupPV pv₀ g n := by
  intro m
  induction m with
  | nil => intro pv₀; rfl
  | cons kv rest ih =>
    obtain ⟨k, v⟩ := kv
    intro pv₀
    rw [List.foldl_cons, ih]
    cases hrest : lastAccepted entries g n rest with
    | some v₂ =>
      have hcons : lastAccepted entries g n ((k, v) :: rest) = some v₂ := by
        unfold lastAccepted
        rw [hrest]
      rw [hcons]
    | none =>
      have hcons : lastAccepted entries g n ((k, v) :: rest) =
          if acceptKey entries k v = some (g, n) then some v else none := by
        unfold lastAccepted
        rw [hrest]
      rw [hcons, processVote_eq]
      cases hacc : acceptKey entries k v with
      | none => simp
      | some gn₂ =>
        obtain ⟨g₂, n₂⟩ := gn₂
        rw [lookupPV_set pv₀ g₂ n₂ v g n]
        by_cases hq : g₂ = g ∧ n₂ = n
        · obtain ⟨h1, h2⟩ := hq
          subst h1; subst h2
          simp
        · rw [if_neg hq]
          have hne : ¬ ((some (g₂, n₂) : Option (String × String)) = some (g, n)) := by
            simp only [Option.some_inj, Prod.mk.injEq]
            exact hq
          rw [if_neg hne]

theorem lastAccepted_eq_some_iff (entries : List Entry) (g n : String) :
    ∀ (m : List (String × String)), (m.map Prod.fst).Nodup →
      ∀ v, (lastAccepted entries g n m = some v ↔
        ∃ k, (k, v) ∈ m ∧ acceptKey entries k v = some (g, n)) := by
  intro m
  induction m with
  | nil => intro _ v; simp [lastAccepted]
  | cons kv rest ih =>
    obtain ⟨k₀, v₀⟩ := kv
    intro hnd v
    rw [List.map_cons, List.nodup_cons] at hnd
    obtain ⟨hk₀, hndr⟩ := hnd
    have hcons : lastAccepted entries g n ((k₀, v₀) :: rest) =
        match lastAccepted entries g n rest with
        | some v₂ => some v₂
        | none => if acceptKey entries k₀ v₀ = some (g, n) then some v₀ else none := rfl
    rw [hcons]
    cases hrest : lastAccepted entries g n rest with
    | some v₂ =>
      show some v₂ = some v ↔
        ∃ k, (k, v) ∈ (k₀, v₀) :: rest ∧ acceptKey entries k v = some (g, n)
      constructor
      · intro he
        rw [Option.some_inj] at he
        obtain ⟨k, hmem, hacc⟩ := (ih hndr v₂).mp hrest
        rw [← he]
        exact ⟨k, List.mem_cons_of_mem _ hmem, hacc⟩
      · rintro ⟨k, hmem, hacc⟩
        rcases List.mem_cons.mp hmem with hhd | htl
        · rw [Prod.mk.injEq] at hhd
          obtain ⟨hk, hv⟩ := hhd
          subst hk
          obtain ⟨k₂, hmem₂, hacc₂⟩ := (ih hndr v₂).mp hrest
          have hcut : cutBar k = some (g, n) :=
            ((acceptKey_eq_some_iff entries k v g n).mp hacc).1
          have hcut₂ : cutBar k₂ = some (g, n) :=
            ((acceptKey_eq_some_iff entries k₂ v₂ g n).mp hacc₂).1
          have : k₂ = k := cutBar_inj k₂ k g n hcut₂ hcut
          subst this
          exact absurd (List.mem_map_of_mem Prod.fst hmem₂) hk₀
        · have := (ih hndr v).mpr ⟨k, htl, hacc⟩
          rw [hrest] at this
          exact this
    | none =>
      show (if acceptKey entries k₀ v₀ = some (g, n) then some v₀ else none) = some v ↔
        ∃ k, (k, v) ∈ (k₀, v₀) :: rest ∧ acceptKey entries k v = some (g, n)
      by_cases hacc0 : acceptKey entries k₀ v₀ = some (g, n)
      · rw [if_pos hacc0]
        constructor
        · intro he
          rw [Option.some_inj] at he
          subst he
          exact ⟨k₀, List.mem_cons_self _ _, hacc0⟩
        · rintro ⟨k, hmem, hacc⟩
          rcases List.mem_cons.mp hmem with hhd | htl
          · rw [Prod.mk.injEq] at hhd
            obtain ⟨hk, hv⟩ := hhd
            subst hv
            rfl
          · have := (ih hndr v).mpr ⟨k, htl, hacc⟩
            rw [hrest] at this
            cases this
      · rw [if_neg hacc0]
        constructor
        · intro he; cases he
        · rintro ⟨k, hmem, hacc⟩
          rcases List.mem_cons.mp hmem with hhd | htl
          · rw [Prod.mk.injEq] at hhd
            obtain ⟨hk, hv⟩ := hhd
            subst hk; subst hv
            exact absurd hacc hacc0
          · have := (ih hndr v).mpr ⟨k, htl, hacc⟩
            rw [hrest] at this
            cases this

/-- Characterization of the cleaned vote map on Go-map submissions (pairwise
distinct keys): exactly the accepted pairs are stored. -/
theorem lookupPV_cleanVotes (entries : List Entry) (m : List (String × String))
    (hnd : (m.map Prod.fst).Nodup) (g n v : String) :
    lookupPV (cleanVotes entries m) g n = some v ↔
      ∃ k, (k, v) ∈ m ∧ acceptKey entries k v = some (g, n) := by
  unfold cleanVotes
  rw [foldl_processVote, ← lastAccepted_eq_some_iff entries g n m hnd v]
  cases hl : lastAccepted entries g n m with
  | some v₂ => simp
  | none => simp [lookupPV, lookupA]

/-- Catalog with the same entry name in two groups, and a submission voting
on both, for the independence example of claim C2. -/
def exEntriesShared : List Entry :=
  [{ Name := "Shared", Group := "GroupA", Open := [("mon", ["lunch"])], Cost := 1 },
   { Name := "Shared", Group := "GroupB", Open := [("mon", ["lunch"])], Cost := 2 }]

def exSharedSubmission : List (String × String) :=
  [("GroupA|Shared", "strong-yes"), ("GroupB|Shared", "no")]

/-- Claim C2: `updateVotes(p, m)` stores for `p` exactly the pairs of `m`
whose key cuts on "|" into a (group, name) pair present in the catalog and
whose value is a recognized vote; the stored map wholly replaces `p`'s
previous one; same-named entries in different groups are stored distinctly;
and submitting the same valid map twice equals submitting it once. -/
theorem updateVotes_spec :
    ∀ (d : DB) (person : String) (m : List (String × String)),
      (m.map Prod.fst).Nodup →
      lookupA person (updateVotes d person m).Votes = some (cleanVotes d.Entries m) ∧
      (∀ g n v, lookupPV (cleanVotes d.Entries m) g n = some v ↔
        ∃ k, (k, v) ∈ m ∧ cutBar k = some (g, n) ∧
          entryGroups d.Entries n g = true ∧ (lookupA v voteScores).isSome = true) ∧
      updateVotes (updateVotes d person m) person m = updateVotes d person m ∧
      lookupPV (cleanVotes exEntriesShared exSharedSubmission) "GroupA" "Shared" =
        some "strong-yes" ∧
      lookupPV (cleanVotes exEntriesShared exSharedSubmission) "GroupB" "Shared" =
        some "no" := by
  intro d person m hnd
  refine ⟨?_, ?_, ?_, by decide, by decide⟩
  · unfold updateVotes
    exact lookupA_setA_self person _ d.Votes
  · intro g n v
    rw [lookupPV_cleanVotes d.Entries m hnd g n v]
    constructor
    · rintro ⟨k, hmem, hacc⟩
      obtain ⟨hcut, hg, hv⟩ := (acceptKey_eq_some_iff d.Entries k v g n).mp hacc
      exact ⟨k, hmem, hcut, hg, hv⟩
    · rintro ⟨k, hmem, hcut, hg, hv⟩
      exact ⟨k, hmem, (acceptKey_eq_some_iff d.Entries k v g n).mpr ⟨hcut, hg, hv⟩⟩
  · obtain ⟨es, vs, go⟩ := d
    simp only [updateVotes]
    congr 1
    exact setA_setA person _ _ vs

theorem updateVotes_spec_witness :
    lookupPV (cleanVotes exEntriesShared exSharedSubmission) "GroupA" "Shared" =
      some "strong-yes" :=
  (updateVotes_spec { Entries := exEntriesShared, Votes := [], GroupOrder := [] }
    "anna" exSharedSubmission (by decide)).2.2.2.1

/-- Claim C10: `updateVotes(p, m)` changes only `p`'s own vote map: the entry
catalog, the group order, and every other person's vote map are untouched. -/
theorem updateVotes_frame :
    ∀ (d : DB) (person : String) (m : List (String × String)),
      (updateVotes d person m).Entries = d.Entries ∧
      (updateVotes d person m).GroupOrder = d.GroupOrder ∧
      ∀ q, q ≠ person → lookupA q (updateVotes d person m).Votes = lookupA q d.Votes := by
  intro d person m
  refine ⟨rfl, rfl, ?_⟩
  intro q hq
  unfold updateVotes
  exact lookupA_setA_ne person q _ hq d.Votes

theorem updateVotes_frame_witness :
    lookupA "bob"
      (updateVotes { Entries := exEntriesShared, Votes := [], GroupOrder := [] }
        "anna" exSharedSubmission).Votes = lookupA "bob" ([] : VoteMap) :=
  (updateVotes_frame { Entries := exEntriesShared, Votes := [], GroupOrder := [] }
    "anna" exSharedSubmission).2.2 "bob" (by decide)

/-- The persisted snapshot document: one JSON object with three top-level
fields.  A field is `none` when it is absent from (or `null` in) the decoded
document, which is exactly the case `Load`'s nil-checks skip. -/
structure SnapshotDoc where
  entries : Option (List Entry)
  votes : Option VoteMap
  groupOrder : Option (List String)

/-- Outcome of the external JSON decoder consumed by `Load`: `eofErr` stands
for `io.EOF`/`io.ErrUnexpectedEOF` (empty or truncated input), `decodeErr`
for any other decoding error, `ok` for a decoded document. -/
inductive DecodeResult where
  | eofErr
  | decodeErr (msg : String)
  | ok (doc : SnapshotDoc)

/-- `Save`: serialize the full current state.  The in-memory maps are always
present in the encoded document. -/
def Save (d : DB) : SnapshotDoc :=
  { entries := some d.Entries, votes := some d.Votes, groupOrder := some d.GroupOrder }

/-- `Load`: returns the error result and the in-memory state after the call.
EOF from the decoder is deliberately ignored, any other decode error is
surfaced, and on a decoded document each field replaces the in-memory one
only when present. -/
def Load (d : DB) : DecodeResult → Option String × DB
  | .eofErr => (none, d)
  | .decodeErr msg => (some ("cannot deserialize data: " ++ msg), d)
  | .ok doc =>
    (none,
      { Entries := doc.entries.getD d.Entries,
        Votes := doc.votes.getD d.Votes,
        GroupOrder := doc.groupOrder.getD d.GroupOrder })

/-- Vote lookup for a (person, group, name) triple straight off the store. -/
def lookupDBVote (d : DB) (p g n : String) : Option String :=
  match lookupA p d.Votes with
  | none => none
  | some pv => lookupPV pv g n

/-- Claim C3: for every store state, Save followed by Load of the produced
document reproduces an equivalent store: same vote value for every (person,
group, name) triple, same entry catalog, same group order. -/
theorem save_load_roundtrip :
    ∀ d : DB, ∃ d₂ : DB,
      Load d (DecodeResult.ok (Save d)) = (none, d₂) ∧
      (∀ p g n, lookupDBVote d₂ p g n = lookupDBVote d p g n) ∧
      d₂.Entries = d.Entries ∧
      d₂.GroupOrder = d.GroupOrder := by
  intro d
  exact ⟨d, rfl, fun p g n => rfl, rfl, rfl⟩

/-- Claim C8: Load returns an error iff the decoder reported a non-EOF
failure; empty/EOF input is treated as no prior state and succeeds; in both
the error case and the EOF case the in-memory state is left unchanged. -/
theorem load_error_spec :
    ∀ (d : DB) (r : DecodeResult),
      (((Load d r).1 ≠ none) ↔ ∃ msg, r = DecodeResult.decodeErr msg) ∧
      (r = DecodeResult.eofErr → Load d r = (none, d)) ∧
      (∀ msg, r = DecodeResult.decodeErr msg → (Load d r).2 = d) := by
  intro d r
  cases r with
  | eofErr => simp [Load]
  | decodeErr msg => simp [Load]
  | ok doc =>
    refine ⟨by simp [Load], ?_, ?_⟩
    · intro h; cases h
    · intro msg h; cases h

theorem load_error_spec_witness :
    (Load { Entries := [], Votes := [], GroupOrder := [] }
      (DecodeResult.decodeErr "bad")).2 = { Entries := [], Votes := [], GroupOrder := [] } :=
  (load_error_spec { Entries := [], Votes := [], GroupOrder := [] }
    (DecodeResult.decodeErr "bad")).2.2 "bad" rfl

/-- Go's `cmp.Compare`: -1 when less, +1 when greater, 0 otherwise. -/
def goCmp {α : Type} [LinearOrder α] (a b : α) : Int :=
  if a < b then -1 else if b < a then 1 else 0

theorem goCmp_le_iff {α : Type} [LinearOrder α] (a b : α) : goCmp a b ≤ 0 ↔ a ≤ b := by
  unfold goCmp
  rcases lt_trichotomy a b with h | h | h
  · rw [if_pos h]
    simp [le_of_lt h]
  · subst h
    rw [if_neg (lt_irrefl a), if_neg (lt_irrefl a)]
    simp
  · rw [if_neg (asymm h), if_pos h]
    simp [not_le.mpr h]

theorem goCmp_lt_iff {α : Type} [LinearOrder α] (a b : α) : goCmp a b < 0 ↔ a < b := by
  unfold goCmp
  rcases lt_trichotomy a b with h | h | h
  · rw [if_pos h]
    simp [h]
  · subst h
    rw [if_neg (lt_irrefl a), if_neg (lt_irrefl a)]
    simp
  · rw [if_neg (asymm h), if_pos h]
    simp [asymm h]

theorem goCmp_eq_zero_iff {α : Type} [LinearOrder α] (a b : α) : goCmp a b = 0 ↔ a = b := by
  unfold goCmp
  rcases lt_trichotomy a b with h | h | h
  · rw [if_pos h]
    simp [ne_of_lt h]
  · subst h
    rw [if_neg (lt_irrefl a), if_neg (lt_irrefl a)]
    simp
  · rw [if_neg (asymm h), if_pos h]
    simp [ne_of_gt h]

theorem goCmp_swap {α : Type} [LinearOrder α] (a b : α) : goCmp b a = -goCmp a b := by
  unfold goCmp
  rcases lt_trichotomy a b with h | h | h
  · simp [h, asymm h]
  · simp [h, lt_irrefl]
  · simp [h, asymm h]

/-- A period table: period name → [start, end) hour bounds. -/
abbrev PeriodTable := List (String × Int × Int)

/-- `periodForHour` from the Go source: scan the table, return the first
period whose interval covers the hour, or "" when none does. -/
def periodForHour (periods : PeriodTable) (hour : Int) : String :=
  match periods with
  | [] => ""
  | (name, bounds) :: rest =>
    if bounds.1 < bounds.2 then
      if bounds.1 ≤ hour ∧ hour < bounds.2 then name else periodForHour rest hour
    else if bounds.1 > bounds.2 then
      if hour ≥ bounds.1 ∨ hour < bounds.2 then name else periodForHour rest hour
    else periodForHour rest hour

/-- Interval coverage as worded in the spec: a non-wrapping interval
[start, end) covers `start <= hour < end`; a wrapping one (start > end)
covers `hour >= start` or `hour < end`; a degenerate one covers nothing. -/
def covers (bounds : Int × Int) (hour : Int) : Bool :=
  if bounds.1 < bounds.2 then decide (bounds.1 ≤ hour ∧ hour < bounds.2)
  else if bounds.1 > bounds.2 then decide (hour ≥ bounds.1 ∨ hour < bounds.2)
  else false

theorem periodForHour_cons (name : String) (bounds : Int × Int) (rest : PeriodTable)
    (hour : Int) :
    periodForHour ((name, bounds) :: rest) hour =
      if covers bounds hour then name else periodForHour rest hour := by
  by_cases h1 : bounds.1 < bounds.2
  · by_cases h2 : bounds.1 ≤ hour ∧ hour < bounds.2
    · simp [periodForHour, covers, h1, h2]
    · simp [periodForHour, covers, h1, h2]
  · by_cases h3 : bounds.1 > bounds.2
    · by_cases h4 : hour ≥ bounds.1 ∨ hour < bounds.2
      · simp [periodForHour, covers, h1, h3, h4]
      · simp [periodForHour, covers, h1, h3, h4]
    · simp [periodForHour, covers, h1, h3]

theorem periodForHour_of_no_cover (hour : Int) :
    ∀ table : PeriodTable, (∀ p ∈ table, covers p.2 hour = false) →
      periodForHour table hour = "" := by
  intro table
  induction table with
  | nil => intro _; rfl
  | cons p rest ih =>
    obtain ⟨name, bounds⟩ := p
    intro h
    rw [periodForHour_cons]
    rw [h (name, bounds) (List.mem_cons_self _ _)]
    exact ih fun q hq => h q (List.mem_cons_of_mem _ hq)

theorem periodForHour_of_cover (hour : Int) :
    ∀ table : PeriodTable, (∃ p ∈ table, covers p.2 hour = true) →
      ∃ p ∈ table, covers p.2 hour = true ∧ periodForHour table hour = p.1 := by
  intro table
  induction table with
  | nil => rintro ⟨p, hp, -⟩; cases hp
  | cons hd rest ih =>
    obtain ⟨name, bounds⟩ := hd
    rintro ⟨p, hp, hcov⟩
    by_cases hhd : covers bounds hour = true
    · refine ⟨(name, bounds), List.mem_cons_self _ _, hhd, ?_⟩
      rw [periodForHour_cons, if_pos hhd]
    · rcases List.mem_cons.mp hp with heq | htl
      · rw [heq] at hcov
        exact absurd hcov hhd
      · obtain ⟨q, hq, hqcov, hqres⟩ := ih ⟨p, htl, hcov⟩
        refine ⟨q, List.mem_cons_of_mem _ hq, hqcov, ?_⟩
        rw [periodForHour_cons, if_neg ?_, hqres]
        simp [hhd]

/-- Hour-disjointness of a period table over the valid hours 0..23. -/
abbrev HourDisjoint (table : PeriodTable) : Prop :=
  table.Pairwise (fun p q =>
    ∀ h ∈ List.range 24, ¬(covers p.2 (h : Int) = true ∧ covers q.2 (h : Int) = true))

theorem periodForHour_unique (hour : Int) (h0 : 0 ≤ hour) (h24 : hour < 24) :
    ∀ table : PeriodTable, HourDisjoint table →
      ∀ p ∈ table, covers p.2 hour = true →
        periodForHour table hour = p.1 ∧
        ∀ q ∈ table, covers q.2 hour = true → q = p := by
  have hmem : hour.toNat ∈ List.range 24 := List.mem_range.mpr (by omega)
  have hcast : (hour.toNat : Int) = hour := Int.toNat_of_nonneg h0
  intro table
  induction table with
  | nil => intro _ p hp; cases hp
  | cons hd rest ih =>
    obtain ⟨name, bounds⟩ := hd
    intro hdisj p hp hcov
    rw [HourDisjoint, List.pairwise_cons] at hdisj
    obtain ⟨hhead, hrest⟩ := hdisj
    rcases List.mem_cons.mp hp with heq | htl
    · subst heq
      constructor
      · rw [periodForHour_cons, if_pos hcov]
      · intro q hq hqcov
        rcases List.mem_cons.mp hq with hqe | hqtl
        · exact hqe
        · exact absurd ⟨by rw [hcast]; exact hcov, by rw [hcast]; exact hqcov⟩
            (hhead q hqtl hour.toNat hmem)
    · have hhdno : ¬ covers bounds hour = true := by
        intro hbad
        exact absurd ⟨by rw [hcast]; exact hbad, by rw [hcast]; exact hcov⟩
          (hhead p htl hour.toNat hmem)
      obtain ⟨hres, huniq⟩ := ih hrest p htl hcov
      constructor
      · rw [periodForHour_cons, if_neg hhdno, hres]
      · intro q hq hqcov
        rcases List.mem_cons.mp hq with hqe | hqtl
        · rw [hqe] at hqcov
          exact absurd hqcov hhdno
        · exact huniq q hqtl hqcov

/-- Claim C4: `periodForHour` returns the name of a period whose interval
covers the hour (non-wrapping `[start,end)` covering `start <= hour < end`,
wrapping `start > end` covering `hour >= start` or `hour < end`), returns the
"" sentinel rather than an error when no interval covers the hour, and on an
hour-disjoint table the covering period for a covered valid hour is unique
and its name is returned. -/
theorem periodForHour_spec :
    ∀ (table : PeriodTable) (hour : Int),
      ((∀ p ∈ table, covers p.2 hour = false) → periodForHour table hour = "") ∧
      ((∃ p ∈ table, covers p.2 hour = true) →
        ∃ p ∈ table, covers p.2 hour = true ∧ periodForHour table hour = p.1) ∧
      (HourDisjoint table → 0 ≤ hour → hour < 24 →
        ∀ p ∈ table, covers p.2 hour = true →
          periodForHour table hour = p.1 ∧
          ∀ q ∈ table, covers q.2 hour = true → q = p) := by
  intro table hour
  exact ⟨periodForHour_of_no_cover hour table,
    periodForHour_of_cover hour table,
    fun hdisj h0 h24 => periodForHour_unique hour h0 h24 table hdisj⟩

/-- The breakfast/lunch/dinner period table of the spec examples. -/
def exPeriodTable : PeriodTable :=
  [("breakfast", (0, 10)), ("lunch", (10, 15)), ("dinner", (15, 0))]

theorem periodForHour_spec_witness :
    periodForHour exPeriodTable 14 = "lunch" ∧
    ∀ q ∈ exPeriodTable, covers q.2 14 = true → q = ("lunch", (10, 15)) :=
  (periodForHour_spec exPeriodTable 14).2.2 (by decide) (by decide) (by decide)
    ("lunch", (10, 15)) (by decide) (by decide)

/-- `slices.Index`: index of the first occurrence, or -1 when absent. -/
def sliceIndex (l : List String) (x : String) : Int :=
  match l with
  | [] => -1
  | a :: rest =>
    if a = x then 0
    else if sliceIndex rest x = -1 then -1 else sliceIndex rest x + 1

/-- First-occurrence index as an `Option Nat`, the specification-side view of
`slices.Index`. -/
def firstIdx : List String → String → Option Nat
  | [], _ => none
  | a :: rest, x => if a = x then some 0 else (firstIdx rest x).map (· + 1)

theorem sliceIndex_eq_firstIdx (x : String) :
    ∀ l : List String,
      sliceIndex l x = match firstIdx l x with | none => -1 | some i => (i : Int) := by
  intro l
  induction l with
  | nil => rfl
  | cons a rest ih =>
    by_cases ha : a = x
    · simp [sliceIndex, firstIdx, ha]
    · have hs : sliceIndex (a :: rest) x =
          if sliceIndex rest x = -1 then -1 else sliceIndex rest x + 1 := by
        simp [sliceIndex, ha]
      have hfx : firstIdx (a :: rest) x = (firstIdx rest x).map (· + 1) := by
        simp [firstIdx, ha]
      rw [hs, hfx]
      cases hf : firstIdx rest x with
      | none =>
        have ih₂ : sliceIndex rest x = -1 := by rw [hf] at ih; exact ih
        rw [ih₂]
        simp
      | some i =>
        have ih₂ : sliceIndex rest x = (i : Int) := by rw [hf] at ih; exact ih
        rw [ih₂, if_neg (by omega)]
        show ((i : Int) + 1 = ((i + 1 : Nat) : Int))
        omega

theorem sliceIndex_of_firstIdx_none {l : List String} {x : String}
    (h : firstIdx l x = none) : sliceIndex l x = -1 := by
  rw [sliceIndex_eq_firstIdx, h]

theorem sliceIndex_of_firstIdx_some {l : List String} {x : String} {i : Nat}
    (h : firstIdx l x = some i) : sliceIndex l x = (i : Int) := by
  rw [sliceIndex_eq_firstIdx, h]

/-- Insert into a sorted list, used by `sortBy`. -/
def insertSorted {α : Type} (le : α → α → Bool) (x : α) : List α → List α
  | [] => [x]
  | y :: rest => if le x y then x :: y :: rest else y :: insertSorted le x rest

/-- Comparison sort modelling Go's `slices.SortFunc` (an unspecified
comparison sort; whenever the claims below rely on a particular output order
the comparator is shown to be tie-free, so any comparison sort agrees). -/
def sortBy {α : Type} (le : α → α → Bool) : List α → List α
  | [] => []
  | x :: rest => insertSorted le x (sortBy le rest)

theorem insertSorted_perm {α : Type} (le : α → α → Bool) (x : α) :
    ∀ l : List α, (insertSorted le x l).Perm (x :: l) := by
  intro l
  induction l with
  | nil => exact List.Perm.refl _
  | cons y rest ih =>
    by_cases h : le x y
    · simp only [insertSorted, if_pos h]
      exact List.Perm.refl _
    · simp only [insertSorted, if_neg h]
      exact (List.Perm.cons y ih).trans (List.Perm.swap x y rest)

theorem sortBy_perm {α : Type} (le : α → α → Bool) :
    ∀ l : List α, (sortBy le l).Perm l := by
  intro l
  induction l with
  | nil => exact List.Perm.refl _
  | cons x rest ih =>
    exact (insertSorted_perm le x (sortBy le rest)).trans (List.Perm.cons x ih)

theorem pairwise_insertSorted {α : Type} (le : α → α → Bool)
    (htr : ∀ a b c, le a b = true → le b c = true → le a c = true)
    (htot : ∀ a b, le a b = true ∨ le b a = true) (x : α) :
    ∀ l : List α, l.Pairwise (fun a b => le a b = true) →
      (insertSorted le x l).Pairwise (fun a b => le a b = true) := by
  intro l
  induction l with
  | nil => intro _; simp [insertSorted]
  | cons y rest ih =>
    intro hp
    rw [List.pairwise_cons] at hp
    obtain ⟨hy, hrest⟩ := hp
    by_cases h : le x y
    · simp only [insertSorted, if_pos h]
      rw [List.pairwise_cons]
      refine ⟨?_, List.pairwise_cons.mpr ⟨hy, hrest⟩⟩
      intro b hb
      rcases List.mem_cons.mp hb with hbe | hbm
      · rw [hbe]; exact h
      · exact htr x y b h (hy b hbm)
    · simp only [insertSorted, if_neg h]
      rw [List.pairwise_cons]
      have hyx : le y x = true := by
        rcases htot x y with ht | ht
        · exact absurd ht h
        · exact ht
      refine ⟨?_, ih hrest⟩
      intro b hb
      rcases List.mem_cons.mp ((insertSorted_perm le x rest).mem_iff.mp hb) with hbe | hbm
      · rw [hbe]; exact hyx
      · exact hy b hbm

theorem pairwise_sortBy {α : Type} (le : α → α → Bool)
    (htr : ∀ a b c, le a b = true → le b c = true → le a c = true)
    (htot : ∀ a b, le a b = true ∨ le b a = true) :
    ∀ l : List α, (sortBy le l).Pairwise (fun a b => le a b = true) := by
  intro l
  induction l with
  | nil => simp [sortBy]
  | cons x rest ih => exact pairwise_insertSorted le htr htot x _ ih

/-- The period list built in `New`: all period names sorted by start hour
(a missing name looks up Go's zero value `(0, 0)`). -/
def buildPeriodList (periods : PeriodTable) : List String :=
  sortBy (fun a b =>
      decide (goCmp ((lookupA a periods).getD (0, 0)).1
        ((lookupA b periods).getD (0, 0)).1 ≤ 0))
    (periods.map Prod.fst)

/-- `periodTallyWeekday`, with the clock values (weekday 0..6, hour) passed
explicitly in place of `nowFunc`. -/
def periodTallyWeekday (periods : PeriodTable) (plist : List String) (weekday : Nat)
    (hour : Int) (period : String) : Nat :=
  if periodForHour periods hour = period then weekday
  else
    if 0 ≤ sliceIndex plist (periodForHour periods hour) ∧
        0 ≤ sliceIndex plist period ∧
        sliceIndex plist period < sliceIndex plist (periodForHour periods hour) then
      (weekday + 1) % 7
    else weekday

/-- Claim C5: the tally weekday resolver returns the current weekday when the
current hour's period equals the requested one; the next weekday (mod 7) when
both periods occur in the start-hour-sorted period list and the requested
one's first index is strictly smaller; and the current weekday otherwise
(including when the current hour lies in a gap); in particular requesting
"dinner" at Sunday (weekday 0) 02:00 against the breakfast/lunch/dinner table
resolves to Sunday. -/
theorem periodTallyWeekday_spec :
    ∀ (periods : PeriodTable) (plist : List String) (weekday : Nat) (hour : Int)
      (period : String),
      (periodForHour periods hour = period →
        periodTallyWeekday periods plist weekday hour period = weekday) ∧
      (∀ ci ri, periodForHour periods hour ≠ period →
        firstIdx plist (periodForHour periods hour) = some ci →
        firstIdx plist period = some ri → ri < ci →
        periodTallyWeekday periods plist weekday hour period = (weekday + 1) % 7) ∧
      (periodForHour periods hour ≠ period →
        (firstIdx plist (periodForHour periods hour) = none ∨
         firstIdx plist period = none ∨
         ∀ ci ri, firstIdx plist (periodForHour periods hour) = some ci →
           firstIdx plist period = some ri → ci ≤ ri) →
        periodTallyWeekday periods plist weekday hour period = weekday) ∧
      (buildPeriodList exPeriodTable = ["breakfast", "lunch", "dinner"] ∧
        periodTallyWeekday exPeriodTable (buildPeriodList exPeriodTable) 0 2 "dinner" = 0) := by
  intro periods plist weekday hour period
  refine ⟨?_, ?_, ?_, by decide, by decide⟩
  · intro h
    unfold periodTallyWeekday
    rw [if_pos h]
  · intro ci ri hne hci hri hlt
    have hc₂ := sliceIndex_of_firstIdx_some hci
    have hr₂ := sliceIndex_of_firstIdx_some hri
    unfold periodTallyWeekday
    rw [if_neg hne,
      if_pos (by rw [hc₂, hr₂]; exact ⟨by omega, by omega, by omega⟩)]
  · intro hne hcases
    have hcond : ¬(0 ≤ sliceIndex plist (periodForHour periods hour) ∧
        0 ≤ sliceIndex plist period ∧
        sliceIndex plist period < sliceIndex plist (periodForHour periods hour)) := by
      rintro ⟨h1, h2, h3⟩
      rcases hcases with hc | hc | hc
      · rw [sliceIndex_of_firstIdx_none hc] at h1
        omega
      · rw [sliceIndex_of_firstIdx_none hc] at h2
        omega
      · cases hcc : firstIdx plist (periodForHour periods hour) with
        | none =>
          rw [sliceIndex_of_firstIdx_none hcc] at h1
          omega
        | some ci =>
          cases hrr : firstIdx plist period with
          | none =>
            rw [sliceIndex_of_firstIdx_none hrr] at h2
            omega
          | some ri =>
            have hle := hc ci ri hcc hrr
            rw [sliceIndex_of_firstIdx_some hcc] at h3
            rw [sliceIndex_of_firstIdx_some hrr] at h3
            omega
    unfold periodTallyWeekday
    rw [if_neg hne, if_neg hcond]

theorem periodTallyWeekday_spec_witness :
    periodTallyWeekday exPeriodTable ["breakfast", "lunch", "dinner"] 1 12 "breakfast" = 2 :=
  (periodTallyWeekday_spec exPeriodTable ["breakfast", "lunch", "dinner"] 1 12
      "breakfast").2.1 1 0 (by decide) (by decide) (by decide) (by decide)

/-- The `orderIndex` map built by `sortGroupNames`: Go's loop assigns
`orderIndex[name] = i` for each position, so the last occurrence wins. -/
def lastIdx (s : String) : List String → Option Nat
  | [] => none
  | a :: rest =>
    match lastIdx s rest with
    | some i => some (i + 1)
    | none => if a = s then some 0 else none

/-- The comparator of `sortGroupNames`: both names in the order compare by
index, a name in the order precedes one that is not, and two names outside
the order compare lexicographically. -/
def cmpGroupName (order : List String) (a b : String) : Int :=
  match lastIdx a order, lastIdx b order with
  | some ia, some ib => goCmp ia ib
  | some _, none => -1
  | none, some _ => 1
  | none, none => goCmp a b

def groupLE (order : List String) (a b : String) : Bool :=
  decide (cmpGroupName order a b ≤ 0)

/-- `sortGroupNames`: groups named in `groupOrder` first in that order, the
rest alphabetically. -/
def sortGroupNames (names : List String) (order : List String) : List String :=
  sortBy (groupLE order) names

theorem lastIdx_eq_none_of_not_mem {s : String} :
    ∀ {l : List String}, s ∉ l → lastIdx s l = none := by
  intro l
  induction l with
  | nil => intro _; rfl
  | cons a rest ih =>
    intro h
    have hs : s ∉ rest := fun hm => h (List.mem_cons_of_mem _ hm)
    have ha : a ≠ s := fun he => h (he ▸ List.mem_cons_self _ _)
    unfold lastIdx
    rw [ih hs, if_neg ha]

theorem lastIdx_isSome_iff_mem (s : String) :
    ∀ l : List String, (lastIdx s l).isSome = true ↔ s ∈ l := by
  intro l
  induction l with
  | nil => simp [lastIdx]
  | cons a rest ih =>
    unfold lastIdx
    cases h : lastIdx s rest with
    | some i =>
      have : s ∈ rest := by
        rw [← ih]
        rw [h]
        rfl
      simp [List.mem_cons, this]
    | none =>
      by_cases ha : a = s
      · simp [ha, List.mem_cons]
      · rw [if_neg ha]
        rw [h] at ih
        simp only [Option.isSome_none, Bool.false_eq_true, false_iff] at ih
        have has : ¬ s = a := fun he => ha he.symm
        simp [List.mem_cons, ih, has]

theorem lastIdx_get {s : String} :
    ∀ {l : List String} {i : Nat}, lastIdx s l = some i →
      ∃ h : i < l.length, l.get ⟨i, h⟩ = s := by
  intro l
  induction l with
  | nil => intro i h; cases h
  | cons a rest ih =>
    intro i h
    unfold lastIdx at h
    cases hr : lastIdx s rest with
    | some j =>
      rw [hr] at h
      rw [Option.some_inj] at h
      subst h
      obtain ⟨hlt, hget⟩ := ih hr
      exact ⟨by simpa using Nat.succ_lt_succ hlt, hget⟩
    | none =>
      rw [hr] at h
      by_cases ha : a = s
      · rw [if_pos ha, Option.some_inj] at h
        subst h
        exact ⟨by simp, ha⟩
      · rw [if_neg ha] at h
        cases h

theorem lastIdx_get_of_nodup :
    ∀ (l : List String), l.Nodup → ∀ (i : Nat) (h : i < l.length),
      lastIdx (l.get ⟨i, h⟩) l = some i := by
  intro l
  induction l with
  | nil => intro _ i h; exact absurd h (by simp)
  | cons a rest ih =>
    intro hnd i h
    rw [List.nodup_cons] at hnd
    obtain ⟨ha, hndr⟩ := hnd
    cases i with
    | zero =>
      show lastIdx a (a :: rest) = some 0
      unfold lastIdx
      rw [lastIdx_eq_none_of_not_mem ha, if_pos rfl]
    | succ k =>
      have hk : k < rest.length := by simpa using h
      show lastIdx (rest.get ⟨k, hk⟩) (a :: rest) = some (k + 1)
      unfold lastIdx
      rw [ih hndr k hk]

/-- In a duplicate-free order list, earlier entries have strictly smaller
comparator value. -/
theorem pairwise_cmpGroupName_lt (order : List String) (hnd : order.Nodup) :
    order.Pairwise (fun a b => cmpGroupName order a b < 0) := by
  rw [List.pairwise_iff_get]
  intro i j hij
  have hi := lastIdx_get_of_nodup order hnd i.1 i.2
  have hj := lastIdx_get_of_nodup order hnd j.1 j.2
  unfold cmpGroupName
  rw [show order.get i = order.get ⟨i.1, i.2⟩ from rfl, hi,
    show order.get j = order.get ⟨j.1, j.2⟩ from rfl, hj]
  show goCmp i.1 j.1 < 0
  rw [goCmp_lt_iff]
  exact hij

theorem cmpGroupName_eq_ss {order : List String} {a b : String} {ia ib : Nat}
    (ha : lastIdx a order = some ia) (hb : lastIdx b order = some ib) :
    cmpGroupName order a b = goCmp ia ib := by
  unfold cmpGroupName
  rw [ha, hb]

theorem cmpGroupName_eq_sn {order : List String} {a b : String} {ia : Nat}
    (ha : lastIdx a order = some ia) (hb : lastIdx b order = none) :
    cmpGroupName order a b = -1 := by
  unfold cmpGroupName
  rw [ha, hb]

theorem cmpGroupName_eq_ns {order : List String} {a b : String} {ib : Nat}
    (ha : lastIdx a order = none) (hb : lastIdx b order = some ib) :
    cmpGroupName order a b = 1 := by
  unfold cmpGroupName
  rw [ha, hb]

theorem cmpGroupName_eq_nn {order : List String} {a b : String}
    (ha : lastIdx a order = none) (hb : lastIdx b order = none) :
    cmpGroupName order a b = goCmp a b := by
  unfold cmpGroupName
  rw [ha, hb]

theorem cmpGroupName_le_trans (order : List String) (a b c : String) :
    cmpGroupName order a b ≤ 0 → cmpGroupName order b c ≤ 0 →
      cmpGroupName order a c ≤ 0 := by
  cases ha : lastIdx a order with
  | some ia =>
    cases hb : lastIdx b order with
    | some ib =>
      cases hc : lastIdx c order with
      | some ic =>
        rw [cmpGroupName_eq_ss ha hb, cmpGroupName_eq_ss hb hc, cmpGroupName_eq_ss ha hc,
          goCmp_le_iff, goCmp_le_iff, goCmp_le_iff]
        exact fun h1 h2 => le_trans h1 h2
      | none =>
        rw [cmpGroupName_eq_sn ha hc]
        intro _ _
        omega
    | none =>
      cases hc : lastIdx c order with
      | some ic =>
        rw [cmpGroupName_eq_ns hb hc]
        intro _ h2
        omega
      | none =>
        rw [cmpGroupName_eq_sn ha hc]
        intro _ _
        omega
  | none =>
    cases hb : lastIdx b order with
    | some ib =>
      rw [cmpGroupName_eq_ns ha hb]
      intro h1 _
      omega
    | none =>
      cases hc : lastIdx c order with
      | some ic =>
        rw [cmpGroupName_eq_ns hb hc]
        intro _ h2
        omega
      | none =>
        rw [cmpGroupName_eq_nn ha hb, cmpGroupName_eq_nn hb hc, cmpGroupName_eq_nn ha hc,
          goCmp_le_iff, goCmp_le_iff, goCmp_le_iff]
        exact fun h1 h2 => le_trans h1 h2

theorem cmpGroupName_le_total (order : List String) (a b : String) :
    cmpGroupName order a b ≤ 0 ∨ cmpGroupName order b a ≤ 0 := by
  cases ha : lastIdx a order with
  | some ia =>
    cases hb : lastIdx b order with
    | some ib =>
      rw [cmpGroupName_eq_ss ha hb, cmpGroupName_eq_ss hb ha, goCmp_le_iff, goCmp_le_iff]
      exact le_total ia ib
    | none =>
      rw [cmpGroupName_eq_sn ha hb]
      left
      omega
  | none =>
    cases hb : lastIdx b order with
    | some ib =>
      rw [cmpGroupName_eq_sn hb ha]
      right
      omega
    | none =>
      rw [cmpGroupName_eq_nn ha hb, cmpGroupName_eq_nn hb ha, goCmp_le_iff, goCmp_le_iff]
      exact le_total a b

theorem cmpGroupName_antisymm (order : List String) (a b : String) :
    cmpGroupName order a b ≤ 0 → cmpGroupName order b a ≤ 0 → a = b := by
  cases ha : lastIdx a order with
  | some ia =>
    cases hb : lastIdx b order with
    | some ib =>
      rw [cmpGroupName_eq_ss ha hb, cmpGroupName_eq_ss hb ha, goCmp_le_iff, goCmp_le_iff]
      intro h1 h2
      have hii : ia = ib := le_antisymm h1 h2
      subst hii
      obtain ⟨hlt, hget⟩ := lastIdx_get ha
      obtain ⟨hlt₂, hget₂⟩ := lastIdx_get hb
      rw [← hget, ← hget₂]
    | none =>
      rw [cmpGroupName_eq_ns hb ha]
      intro _ h2
      omega
  | none =>
    cases hb : lastIdx b order with
    | some ib =>
      rw [cmpGroupName_eq_ns ha hb]
      intro h1 _
      omega
    | none =>
      rw [cmpGroupName_eq_nn ha hb, cmpGroupName_eq_nn hb ha, goCmp_le_iff, goCmp_le_iff]
      exact fun h1 h2 => le_antisymm h1 h2

/-- A list in which every element satisfying `p` precedes every element not
satisfying it splits as its `p`-part followed by its non-`p`-part. -/
theorem eq_filter_append_filter {α : Type} (p : α → Bool) :
    ∀ l : List α, l.Pairwise (fun a b => p b = true → p a = true) →
      l = l.filter p ++ l.filter (fun a => !(p a)) := by
  intro l
  induction l with
  | nil => intro _; rfl
  | cons x rest ih =>
    intro hp
    rw [List.pairwise_cons] at hp
    obtain ⟨hx, hrest⟩ := hp
    by_cases hpx : p x = true
    · rw [List.filter_cons_of_pos hpx, List.filter_cons_of_neg (by simp [hpx]),
        List.cons_append, ← ih hrest]
    · have hall : ∀ b ∈ rest, ¬ p b = true := fun b hb hpb => hpx (hx b hb hpb)
      rw [List.filter_cons_of_neg hpx, List.filter_cons_of_pos (by simp [hpx]),
        List.filter_eq_nil_iff.mpr hall, List.nil_append]
      congr 1
      symm
      rw [List.filter_eq_self]
      intro a ha
      simp [hall a ha]

theorem groupLE_trans (order : List String) :
    ∀ a b c, groupLE order a b = true → groupLE order b c = true →
      groupLE order a c = true := by
  intro a b c h1 h2
  unfold groupLE at *
  rw [decide_eq_true_iff] at *
  exact cmpGroupName_le_trans order a b c h1 h2

theorem groupLE_total (order : List String) :
    ∀ a b, groupLE order a b = true ∨ groupLE order b a = true := by
  intro a b
  unfold groupLE
  rw [decide_eq_true_iff, decide_eq_true_iff]
  exact cmpGroupName_le_total order a b

theorem sortGroupNames_pairwise (names order : List String) :
    (sortGroupNames names order).Pairwise (fun a b => cmpGroupName order a b ≤ 0) := by
  have := pairwise_sortBy (groupLE order) (groupLE_trans order) (groupLE_total order) names
  exact this.imp (fun h => by rwa [groupLE, decide_eq_true_iff] at h)

theorem sortGroupNames_char (names order : List String)
    (hnn : names.Nodup) (hon : order.Nodup) :
    sortGroupNames names order =
      order.filter (fun g => decide (g ∈ names)) ++
        (sortGroupNames names order).filter (fun g => !(lastIdx g order).isSome) ∧
    ((sortGroupNames names order).filter (fun g => !(lastIdx g order).isSome)).Perm
      (names.filter (fun g => decide (g ∉ order))) ∧
    ((sortGroupNames names order).filter
      (fun g => !(lastIdx g order).isSome)).Pairwise (· ≤ ·) := by
  have hperm : (sortGroupNames names order).Perm names := sortBy_perm (groupLE order) names
  have hpwP := sortGroupNames_pairwise names order
  have hsplit : sortGroupNames names order =
      (sortGroupNames names order).filter (fun g => (lastIdx g order).isSome) ++
        (sortGroupNames names order).filter (fun g => !(lastIdx g order).isSome) := by
    refine eq_filter_append_filter _ _ (hpwP.imp ?_)
    intro a b h hb
    cases ha : lastIdx a order with
    | some ia => rfl
    | none =>
      cases hbb : lastIdx b order with
      | some ib =>
        rw [cmpGroupName_eq_ns ha hbb] at h
        omega
      | none =>
        rw [hbb] at hb
        cases hb
  have hfront : (sortGroupNames names order).filter (fun g => (lastIdx g order).isSome) =
      order.filter (fun g => decide (g ∈ names)) := by
    have hnl : ((sortGroupNames names order).filter
        (fun g => (lastIdx g order).isSome)).Perm
          (order.filter (fun g => decide (g ∈ names))) := by
      have h1 : ((sortGroupNames names order).filter
          (fun g => (lastIdx g order).isSome)).Perm
            (names.filter (fun g => (lastIdx g order).isSome)) :=
        List.Perm.filter _ hperm
      refine h1.trans ?_
      rw [List.perm_ext_iff_of_nodup (hnn.filter _) (hon.filter _)]
      intro x
      simp only [List.mem_filter, lastIdx_isSome_iff_mem, decide_eq_true_iff]
      exact and_comm
    have hs1 : ((sortGroupNames names order).filter
        (fun g => (lastIdx g order).isSome)).Pairwise
          (fun a b => cmpGroupName order a b ≤ 0) :=
      List.Pairwise.sublist (List.filter_sublist _) hpwP
    have hs2 : (order.filter (fun g => decide (g ∈ names))).Pairwise
        (fun a b => cmpGroupName order a b ≤ 0) :=
      (List.Pairwise.sublist (List.filter_sublist _) (pairwise_cmpGroupName_lt order hon)).imp
        (fun h => le_of_lt h)
    exact @List.eq_of_perm_of_sorted String (fun a b => cmpGroupName order a b ≤ 0)
      ⟨fun a b => cmpGroupName_antisymm order a b⟩ _ _ hnl hs1 hs2
  refine ⟨by rw [← hfront]; exact hsplit, ?_, ?_⟩
  · have h1 : ((sortGroupNames names order).filter
        (fun g => !(lastIdx g order).isSome)).Perm
          (names.filter (fun g => !(lastIdx g order).isSome)) :=
      List.Perm.filter _ hperm
    refine h1.trans ?_
    rw [List.filter_congr ?_]
    intro x _
    by_cases hm : x ∈ order
    · rw [show (lastIdx x order).isSome = true from (lastIdx_isSome_iff_mem x order).mpr hm]
      simp [hm]
    · rw [show lastIdx x order = none from lastIdx_eq_none_of_not_mem hm]
      simp [hm]
  · have hsub : ((sortGroupNames names order).filter
        (fun g => !(lastIdx g order).isSome)).Pairwise
          (fun a b => cmpGroupName order a b ≤ 0) :=
      List.Pairwise.sublist (List.filter_sublist _) hpwP
    refine hsub.imp_of_mem ?_
    intro a b ha hb h
    rw [List.mem_filter] at ha hb
    have hna : lastIdx a order = none := by
      rcases hax : lastIdx a order with - | i
      · rfl
      · rw [hax] at ha
        simp at ha
    have hnb : lastIdx b order = none := by
      rcases hbx : lastIdx b order with - | i
      · rfl
      · rw [hbx] at hb
        simp at hb
    rw [cmpGroupName_eq_nn hna hnb, goCmp_le_iff] at h
    exact h

/-- Claim C7: the displayed group ordering puts names present in the group
order first, in the exact sequence given, then all remaining names sorted
lexicographically ascending; names in the group order absent from the catalog
are silently ignored and do not affect the result. -/
theorem sortGroupNames_spec :
    ∀ (names order : List String), names.Nodup → order.Nodup →
      (∃ rest,
        sortGroupNames names order =
          order.filter (fun g => decide (g ∈ names)) ++ rest ∧
        rest.Perm (names.filter (fun g => decide (g ∉ order))) ∧
        rest.Pairwise (· ≤ ·)) ∧
      sortGroupNames names order =
        sortGroupNames names (order.filter (fun g => decide (g ∈ names))) := by
  intro names order hnn hon
  obtain ⟨hsplit, hpermr, hsorted⟩ := sortGroupNames_char names order hnn hon
  refine ⟨⟨_, hsplit, hpermr, hsorted⟩, ?_⟩
  have hon₂ : (order.filter (fun g => decide (g ∈ names))).Nodup := hon.filter _
  obtain ⟨hsplit₂, hpermr₂, hsorted₂⟩ :=
    sortGroupNames_char names (order.filter (fun g => decide (g ∈ names))) hnn hon₂
  have hfront : (order.filter (fun g => decide (g ∈ names))).filter
      (fun g => decide (g ∈ names)) = order.filter (fun g => decide (g ∈ names)) := by
    rw [List.filter_filter]
    exact List.filter_congr (fun x _ => by simp)
  have hnamesf : names.filter (fun g => decide (g ∉ order.filter (fun g => decide (g ∈ names)))) =
      names.filter (fun g => decide (g ∉ order)) := by
    refine List.filter_congr ?_
    intro x hx
    rw [decide_eq_decide]
    rw [List.mem_filter, decide_eq_true_iff]
    constructor
    · intro h hmem
      exact h ⟨hmem, hx⟩
    · intro h hmem
      exact h hmem.1
  have hrest : ((sortGroupNames names order).filter
      (fun g => !(lastIdx g order).isSome)).Perm
        ((sortGroupNames names (order.filter (fun g => decide (g ∈ names)))).filter
          (fun g => !(lastIdx g (order.filter (fun g => decide (g ∈ names)))).isSome)) :=
    (hpermr.trans (by rw [← hnamesf])).trans hpermr₂.symm
  have heq : ((sortGroupNames names order).filter
      (fun g => !(lastIdx g order).isSome)) =
        ((sortGroupNames names (order.filter (fun g => decide (g ∈ names)))).filter
          (fun g => !(lastIdx g (order.filter (fun g => decide (g ∈ names)))).isSome)) :=
    List.eq_of_perm_of_sorted hrest hsorted hsorted₂
  rw [hsplit, hsplit₂, hfront, heq]

theorem sortGroupNames_spec_witness :
    ∃ rest,
      sortGroupNames ["Uptown", "Downtown", "Midtown", "Suburbs"] ["Midtown"] =
        (["Midtown"].filter
          (fun g => decide (g ∈ ["Uptown", "Downtown", "Midtown", "Suburbs"]))) ++ rest ∧
      rest.Perm ((["Uptown", "Downtown", "Midtown", "Suburbs"]).filter
        (fun g => decide (g ∉ ["Midtown"]))) ∧
      rest.Pairwise (· ≤ ·) :=
  (sortGroupNames_spec ["Uptown", "Downtown", "Midtown", "Suburbs"] ["Midtown"]
    (by decide) (by decide)).1

/-- The token → person reverse index built in `New`: `tokens[token] = person`
for every (person, token) roster pair; with a duplicated token the last
written binding wins, as for a Go map assignment. -/
def buildTokens (people : List (String × String)) : List (String × String) :=
  people.foldl (fun acc pt => setA pt.2 pt.1 acc) []

/-- `personForToken`: reverse lookup in the token index. -/
def personForToken (tokens : List (String × String)) (token : String) : Option String :=
  lookupA token tokens

theorem foldTokens_lookup_of_not_mem {t : String} :
    ∀ (people : List (String × String)), (∀ p, (p, t) ∉ people) →
      ∀ acc, lookupA t (people.foldl (fun acc pt => setA pt.2 pt.1 acc) acc) =
        lookupA t acc := by
  intro people
  induction people with
  | nil => intro _ acc; rfl
  | cons pt rest ih =>
    obtain ⟨p₀, t₀⟩ := pt
    intro h acc
    have ht₀ : t₀ ≠ t := by
      intro he
      exact h p₀ (by rw [he]; exact List.mem_cons_self _ _)
    rw [List.foldl_cons, ih (fun p hm => h p (List.mem_cons_of_mem _ hm))]
    exact lookupA_setA_ne t₀ t p₀ (Ne.symm ht₀) acc

theorem foldTokens_lookup_of_mem {t p : String} :
    ∀ (people : List (String × String)), (people.map Prod.snd).Nodup →
      (p, t) ∈ people →
      ∀ acc, lookupA t (people.foldl (fun acc pt => setA pt.2 pt.1 acc) acc) = some p := by
  intro people
  induction people with
  | nil => intro _ hm; cases hm
  | cons pt rest ih =>
    obtain ⟨p₀, t₀⟩ := pt
    intro hnd hm acc
    rw [List.map_cons, List.nodup_cons] at hnd
    obtain ⟨ht₀, hndr⟩ := hnd
    rw [List.foldl_cons]
    rcases List.mem_cons.mp hm with hhd | htl
    · rw [Prod.mk.injEq] at hhd
      obtain ⟨hp, ht⟩ := hhd
      subst hp; subst ht
      have hnone : ∀ q, (q, t) ∉ rest := by
        intro q hq
        exact ht₀ (by simpa using List.mem_map_of_mem Prod.snd hq)
      rw [foldTokens_lookup_of_not_mem rest hnone]
      exact lookupA_setA_self t p acc
    · exact ih hndr htl _

/-- Claim C9 counterexample: a roster that assigns the empty string as a
person's token makes `personForToken("")` return that person with
found = true, contradicting "the empty-string token never matches any
person". -/
theorem personForToken_empty_counterexample :
    personForToken (buildTokens [("p", "")]) "" = some "p" := by decide

/-- Claim C9 (amended): `personForToken` returns not-found for every token
not assigned to any person in the roster — in particular for the empty
string whenever no person's token is the empty string — and, when the
roster's tokens are pairwise distinct, a token assigned to a person returns
that person. -/
theorem personForToken_amended :
    ∀ (people : List (String × String)) (t : String),
      ((∀ p, (p, t) ∉ people) → personForToken (buildTokens people) t = none) ∧
      ((people.map Prod.snd).Nodup → ∀ p, (p, t) ∈ people →
        personForToken (buildTokens people) t = some p) := by
  intro people t
  constructor
  · intro h
    unfold personForToken buildTokens
    rw [foldTokens_lookup_of_not_mem people h []]
    rfl
  · intro hnd p hm
    unfold personForToken buildTokens
    exact foldTokens_lookup_of_mem people hnd hm []

theorem personForToken_amended_witness :
    personForToken (buildTokens [("alice", "tokenA"), ("bob", "tokenB")]) "tokenA" =
      some "alice" :=
  (personForToken_amended [("alice", "tokenA"), ("bob", "tokenB")] "tokenA").2
    (by decide) "alice" (by decide)

/-- One scored entry of `tallyData`'s first pass. -/
structure ScoredE where
  entry : Entry
  score : Int
  closed : Bool
  strongNo : Bool
deriving DecidableEq

/-- Weekday short codes, `weekdays[w].Short` (Go's zero value "" otherwise). -/
def weekdayShort : Nat → String
  | 0 => "sun"
  | 1 => "mon"
  | 2 => "tue"
  | 3 => "wed"
  | 4 => "thu"
  | 5 => "fri"
  | 6 => "sat"
  | _ => ""

/-- Open/closed check in `tallyData`: closed unless the entry's Open map has
the weekday's short code with the requested period listed. -/
def isClosed (e : Entry) (weekday : Nat) (period : String) : Bool :=
  match lookupA (weekdayShort weekday) e.Open with
  | none => true
  | some periods => !(periods.contains period)

/-- First pass of `tallyData`: score, open/closed state and veto flag per
catalog entry, in catalog order. -/
def scoredItems (people : List String) (d : DB) (weekday : Nat) (period : String) :
    List ScoredE :=
  d.Entries.map (fun e =>
    { entry := e, score := entryScore people d.Votes e,
      closed := isClosed e weekday period,
      strongNo := entryStrongNo people d.Votes e })

/-- The three-key comparator of `tallyData`: score descending, then cost
ascending, then name ascending. -/
def cmpScored (a b : ScoredE) : Int :=
  if goCmp b.score a.score ≠ 0 then goCmp b.score a.score
  else if goCmp a.entry.Cost b.entry.Cost ≠ 0 then goCmp a.entry.Cost b.entry.Cost
  else goCmp a.entry.Name b.entry.Name

def scoredLE (a b : ScoredE) : Bool := decide (cmpScored a b ≤ 0)

/-- The group's entries in catalog order (`groupMap[gName]`). -/
def groupItems (items : List ScoredE) (g : String) : List ScoredE :=
  items.filter (fun s => decide (s.entry.Group = g))

/-- Per-group entry list of `tallyData`: open entries sorted first, then
closed entries sorted, both by `cmpScored`. -/
def tallyGroupList (items : List ScoredE) (g : String) : List ScoredE :=
  sortBy scoredLE ((groupItems items g).filter (fun s => !s.closed)) ++
    sortBy scoredLE ((groupItems items g).filter (fun s => s.closed))

/-- The rendered per-entry view (`entryData`); fields `tallyData` does not
set keep Go's zero values. -/
structure EntryData where
  Name : String
  Group : String
  CurrentVote : String
  Score : Int
  Cost : Int
  CostDisplay : String
  Open : List (String × List String)
  Closed : Bool
  StrongNo : Bool
deriving DecidableEq

/-- `strings.Repeat("$", cost)` for the cost tiers (1..4) in use. -/
def costDisplay (c : Int) : String := ⟨List.replicate c.toNat '$'⟩

def scoredView (s : ScoredE) : EntryData :=
  { Name := s.entry.Name, Group := "", CurrentVote := "", Score := s.score,
    Cost := 0, CostDisplay := costDisplay s.entry.Cost, Open := [],
    Closed := s.closed, StrongNo := s.strongNo }

/-- The rendered per-group view (`groupData`). -/
structure GroupData where
  Name : String
  Entries : List EntryData
deriving DecidableEq

/-- `tallyData`: score all entries, group them, order the group names, and
render each group's open-then-closed sorted entry list. -/
def tallyData (people : List String) (d : DB) (weekday : Nat) (period : String) :
    List GroupData :=
  (sortGroupNames (((scoredItems people d weekday period).map
      (fun s => s.entry.Group)).dedup) d.GroupOrder).map
    (fun g =>
      { Name := g,
        Entries := (tallyGroupList (scoredItems people d weekday period) g).map scoredView })

theorem cmpScored_le_iff (a b : ScoredE) :
    cmpScored a b ≤ 0 ↔
      (b.score < a.score ∨ (b.score = a.score ∧
        (a.entry.Cost < b.entry.Cost ∨ (a.entry.Cost = b.entry.Cost ∧
          a.entry.Name ≤ b.entry.Name)))) := by
  unfold cmpScored
  by_cases h1 : goCmp b.score a.score = 0
  · have hsc : b.score = a.score := (goCmp_eq_zero_iff _ _).mp h1
    rw [if_neg (not_not.mpr h1)]
    by_cases h2 : goCmp a.entry.Cost b.entry.Cost = 0
    · have hcost : a.entry.Cost = b.entry.Cost := (goCmp_eq_zero_iff _ _).mp h2
      rw [if_neg (not_not.mpr h2), goCmp_le_iff]
      constructor
      · intro h
        exact Or.inr ⟨hsc, Or.inr ⟨hcost, h⟩⟩
      · rintro (h | ⟨-, (h | ⟨-, h⟩)⟩)
        · exact absurd hsc (ne_of_lt h)
        · exact absurd hcost (ne_of_lt h)
        · exact h
    · have hcne : ¬ a.entry.Cost = b.entry.Cost :=
        fun he => h2 ((goCmp_eq_zero_iff _ _).mpr he)
      rw [if_pos h2, goCmp_le_iff]
      constructor
      · intro h
        exact Or.inr ⟨hsc, Or.inl (lt_of_le_of_ne h hcne)⟩
      · rintro (h | ⟨-, (h | ⟨he, -⟩)⟩)
        · exact absurd hsc (ne_of_lt h)
        · exact le_of_lt h
        · exact absurd he hcne
  · have hne : ¬ b.score = a.score := fun he => h1 ((goCmp_eq_zero_iff _ _).mpr he)
    rw [if_pos h1, goCmp_le_iff]
    constructor
    · intro h
      exact Or.inl (lt_of_le_of_ne h hne)
    · rintro (h | ⟨he, -⟩)
      · exact le_of_lt h
      · exact absurd he hne

theorem cmpScored_eq_zero {a b : ScoredE} (h : cmpScored a b = 0) :
    a.score = b.score ∧ a.entry.Cost = b.entry.Cost ∧ a.entry.Name = b.entry.Name := by
  unfold cmpScored at h
  by_cases h1 : goCmp b.score a.score ≠ 0
  · rw [if_pos h1] at h
    exact absurd h h1
  · rw [if_neg h1] at h
    rw [not_ne_iff, goCmp_eq_zero_iff] at h1
    by_cases h2 : goCmp a.entry.Cost b.entry.Cost ≠ 0
    · rw [if_pos h2] at h
      exact absurd h h2
    · rw [if_neg h2] at h
      rw [not_ne_iff, goCmp_eq_zero_iff] at h2
      rw [goCmp_eq_zero_iff] at h
      exact ⟨h1.symm, h2, h⟩

theorem cmpScored_le_trans (a b c : ScoredE) :
    cmpScored a b ≤ 0 → cmpScored b c ≤ 0 → cmpScored a c ≤ 0 := by
  rw [cmpScored_le_iff, cmpScored_le_iff, cmpScored_le_iff]
  rintro (h1 | ⟨hs1, (hc1 | ⟨he1, hn1⟩)⟩) (h2 | ⟨hs2, (hc2 | ⟨he2, hn2⟩)⟩) <;>
    first
      | (left; omega)
      | (right; exact ⟨by omega, Or.inl (by omega)⟩)
      | (right; exact ⟨by omega, Or.inr ⟨by omega, le_trans hn1 hn2⟩⟩)

theorem cmpScored_le_total (a b : ScoredE) :
    cmpScored a b ≤ 0 ∨ cmpScored b a ≤ 0 := by
  rw [cmpScored_le_iff, cmpScored_le_iff]
  rcases lt_trichotomy b.score a.score with h | h | h
  · exact Or.inl (Or.inl h)
  · rcases lt_trichotomy a.entry.Cost b.entry.Cost with h2 | h2 | h2
    · exact Or.inl (Or.inr ⟨h, Or.inl h2⟩)
    · rcases le_total a.entry.Name b.entry.Name with h3 | h3
      · exact Or.inl (Or.inr ⟨h, Or.inr ⟨h2, h3⟩⟩)
      · exact Or.inr (Or.inr ⟨h.symm, Or.inr ⟨h2.symm, h3⟩⟩)
    · exact Or.inr (Or.inr ⟨h.symm, Or.inl h2⟩)
  · exact Or.inr (Or.inl h)

theorem scoredLE_trans :
    ∀ a b c, scoredLE a b = true → scoredLE b c = true → scoredLE a c = true := by
  intro a b c h1 h2
  unfold scoredLE at *
  rw [decide_eq_true_iff] at *
  exact cmpScored_le_trans a b c h1 h2

theorem scoredLE_total : ∀ a b, scoredLE a b = true ∨ scoredLE b a = true := by
  intro a b
  unfold scoredLE
  rw [decide_eq_true_iff, decide_eq_true_iff]
  exact cmpScored_le_total a b

theorem pairwise_le_sortBy_scored (l : List ScoredE) :
    (sortBy scoredLE l).Pairwise (fun a b => cmpScored a b ≤ 0) :=
  (pairwise_sortBy scoredLE scoredLE_trans scoredLE_total l).imp
    (fun h => by rwa [scoredLE, decide_eq_true_iff] at h)

/-- With unique (Group, Name) pairs among the items, each sorted partition of
a tally group is strictly ordered: no ties remain. -/
theorem strict_of_nodup_pairs (items : List ScoredE) (g : String) (p : ScoredE → Bool)
    (hn : (items.map (fun s => (s.entry.Group, s.entry.Name))).Nodup) :
    (sortBy scoredLE ((groupItems items g).filter p)).Pairwise
      (fun a b => cmpScored a b < 0) := by
  have hle := pairwise_le_sortBy_scored ((groupItems items g).filter p)
  have hsub : ((groupItems items g).filter p).Sublist items :=
    (List.filter_sublist _).trans (List.filter_sublist _)
  have hnd₂ : (((groupItems items g).filter p).map
      (fun s => (s.entry.Group, s.entry.Name))).Nodup :=
    List.Nodup.sublist (List.Sublist.map _ hsub) hn
  have hnd₃ : ((sortBy scoredLE ((groupItems items g).filter p)).map
      (fun s => (s.entry.Group, s.entry.Name))).Nodup :=
    (List.Perm.map _ (sortBy_perm scoredLE _)).symm.nodup hnd₂
  have hpairne : (sortBy scoredLE ((groupItems items g).filter p)).Pairwise
      (fun a b => (a.entry.Group, a.entry.Name) ≠ (b.entry.Group, b.entry.Name)) :=
    (List.pairwise_map).mp hnd₃
  have hgrp : ∀ s ∈ sortBy scoredLE ((groupItems items g).filter p),
      s.entry.Group = g := by
    intro s hs
    have hm := (List.mem_filter.mp ((sortBy_perm scoredLE _).mem_iff.mp hs)).1
    rw [groupItems, List.mem_filter] at hm
    exact of_decide_eq_true hm.2
  refine (hle.and hpairne).imp_of_mem ?_
  intro a b ha hb hab
  obtain ⟨h₁, h₂⟩ := hab
  rcases lt_or_eq_of_le h₁ with h | h
  · exact h
  · exfalso
    obtain ⟨hsc, hco, hnm⟩ := cmpScored_eq_zero h
    exact h₂ (by rw [hgrp a ha, hgrp b hb, hnm])

/-- Claim C6: in every tally group, all open entries are listed before all
closed ones regardless of score, each open/closed partition is sorted by
score descending, then cost ascending, then name ascending, and when
(Group, Name) pairs are unique in the catalog that order is strict — no
remaining ties. -/
theorem tallyData_ordering :
    ∀ (people : List String) (d : DB) (weekday : Nat) (period : String),
      ∀ gd ∈ tallyData people d weekday period,
        ∃ l₁ l₂ : List ScoredE,
          gd.Entries = (l₁ ++ l₂).map scoredView ∧
          (∀ s ∈ l₁, s.closed = false) ∧
          (∀ s ∈ l₂, s.closed = true) ∧
          l₁.Pairwise (fun a b => cmpScored a b ≤ 0) ∧
          l₂.Pairwise (fun a b => cmpScored a b ≤ 0) ∧
          ((d.Entries.map (fun e => (e.Group, e.Name))).Nodup →
            l₁.Pairwise (fun a b => cmpScored a b < 0) ∧
            l₂.Pairwise (fun a b => cmpScored a b < 0)) := by
  intro people d weekday period gd hgd
  unfold tallyData at hgd
  rw [List.mem_map] at hgd
  obtain ⟨g, -, hgd⟩ := hgd
  subst hgd
  refine ⟨sortBy scoredLE ((groupItems (scoredItems people d weekday period) g).filter
      (fun s => !s.closed)),
    sortBy scoredLE ((groupItems (scoredItems people d weekday period) g).filter
      (fun s => s.closed)), rfl, ?_, ?_,
    pairwise_le_sortBy_scored _, pairwise_le_sortBy_scored _, ?_⟩
  · intro s hs
    have h₂ := (List.mem_filter.mp ((sortBy_perm scoredLE _).mem_iff.mp hs)).2
    cases hcl : s.closed
    · rfl
    · rw [hcl] at h₂
      exact absurd h₂ (by decide)
  · intro s hs
    exact (List.mem_filter.mp ((sortBy_perm scoredLE _).mem_iff.mp hs)).2
  · intro hu
    have hitems : ((scoredItems people d weekday period).map
        (fun s => (s.entry.Group, s.entry.Name))).Nodup := by
      unfold scoredItems
      rw [List.map_map]
      exact hu
    exact ⟨strict_of_nodup_pairs _ g _ hitems, strict_of_nodup_pairs _ g _ hitems⟩

/-- The open-before-closed example catalog from the repository's tests: a
closed entry with a higher score and an open one with a lower score. -/
def exTallyDB : DB :=
  { Entries :=
      [{ Name := "Open Low", Group := "Group", Open := [("mon", ["lunch"])], Cost := 4 },
       { Name := "Closed High", Group := "Group", Open := [("mon", ["dinner"])], Cost := 1 }],
    Votes := [], GroupOrder := [] }

def exTallyGD : GroupData :=
  (tallyData ["alice"] exTallyDB 1 "lunch").headD { Name := "", Entries := [] }

theorem tallyData_ordering_witness :
    ∃ l₁ l₂ : List ScoredE,
      exTallyGD.Entries = (l₁ ++ l₂).map scoredView ∧
      (∀ s ∈ l₁, s.closed = false) ∧
      (∀ s ∈ l₂, s.closed = true) ∧
      l₁.Pairwise (fun a b => cmpScored a b ≤ 0) ∧
      l₂.Pairwise (fun a b => cmpScored a b ≤ 0) ∧
      ((exTallyDB.Entries.map (fun e => (e.Group, e.Name))).Nodup →
        l₁.Pairwise (fun a b => cmpScored a b < 0) ∧
        l₂.Pairwise (fun a b => cmpScored a b < 0)) :=
  tallyData_ordering ["alice"] exTallyDB 1 "lunch" exTallyGD (by decide)

end Anything
